import Mathlib

/-!
Shallow embedding of the reliability-engineering calculation engine of this
repository (the Python modules `reliability_engine.py` and `test_server.py`),
together with proofs settling the specification claims about it.

Conventions of the embedding:
* Python floats are modelled as real numbers `ℝ`; the exact-rational parts of
  the code (Pareto ranking, PFMEA scoring, which only add, multiply, divide and
  compare) are modelled over `ℚ` so that they stay executable.
* `numpy`/`math` transcendental functions are modelled by their Mathlib real
  counterparts (`Real.exp`, `Real.log`, `Real.Gamma`, `Real.sqrt`, and real
  exponentiation `Real.rpow` for `np.power`).
* `np.log` applied to a non-positive argument produces a non-finite float
  (`-inf`/`nan`); this is modelled by `npLog : ℝ → Option ℝ` returning `none`
  there, so a non-finite statistic surfaces as `none`.
* Python's `sorted`/`np.sort` is `List.mergeSort` (both are stable sorts).
* A raised `ValueError` is modelled by `Except.error`.
* Bounded `for`-loops are modelled by structural recursion on the (exact)
  iteration count.
-/

namespace RelEng

/-! ## Lifetime distribution model (`reliability_engine.py`, class `WeibullParameters`)

The Python class is a plain `@dataclass`: its constructor stores the four
fields and performs no validation whatsoever. -/

/-- Weibull distribution parameters, embedding the Python dataclass
`WeibullParameters(shape, scale, location, confidence_level=0.95)`.
No constructor validation exists in the source. -/
structure WeibullParameters where
  shape : ℝ
  scale : ℝ
  location : ℝ
  confidence_level : ℝ := 0.95

/-- `WeibullParameters.reliability`: `R(t) = exp(-((t-γ)/η)^β)`, with the
source's early return `1.0` when `time <= self.location`. No check of the
sign of `time` exists in the source. -/
noncomputable def WeibullParameters.reliability (p : WeibullParameters) (time : ℝ) : ℝ :=
  if time ≤ p.location then 1
  else Real.exp (-(((time - p.location) / p.scale) ^ p.shape))

/-- `WeibullParameters.failure_density`:
`f(t) = (β/η)·((t-γ)/η)^(β-1)·R(t)`, early return `0.0` for `time <= location`. -/
noncomputable def WeibullParameters.failure_density (p : WeibullParameters) (time : ℝ) : ℝ :=
  if time ≤ p.location then 0
  else p.shape / p.scale * ((time - p.location) / p.scale) ^ (p.shape - 1) * p.reliability time

/-- `WeibullParameters.hazard_rate`:
`h(t) = (β/η)·((t-γ)/η)^(β-1)`, early return `0.0` for `time <= location`. -/
noncomputable def WeibullParameters.hazard_rate (p : WeibullParameters) (time : ℝ) : ℝ :=
  if time ≤ p.location then 0
  else p.shape / p.scale * ((time - p.location) / p.scale) ^ (p.shape - 1)

/-- `WeibullParameters.mttf`: `γ + η·Γ(1 + 1/β)`. -/
noncomputable def WeibullParameters.mttf (p : WeibullParameters) : ℝ :=
  p.location + p.scale * Real.Gamma (1 + 1 / p.shape)

/-- `WeibullParameters.b_life`: `γ + η·(-ln(1 - p/100))^(1/β)`. -/
noncomputable def WeibullParameters.b_life (p : WeibullParameters) (percentile : ℝ) : ℝ :=
  p.location + p.scale * (-Real.log (1 - percentile / 100)) ^ (1 / p.shape)

end RelEng

namespace RelEng

/-! ## Claim C2: construction validation and negative-time evaluation -/

/-- C2 counterexample: the source performs no validation at all. A model with
`shape = -1 ≤ 0` and `scale = -1 ≤ 0` is constructed without any
InvalidParameter error (the dataclass has no checks), and evaluating its
functions at the negative time `t = -2 < 0` raises no InvalidArgument error:
it simply takes the `time <= location` early-return branch and yields the
boundary values `reliability = 1`, `density = 0`, `hazard = 0`. This refutes
the claim that such construction and evaluation fail. -/
theorem C2_counterexample :
    (WeibullParameters.mk (-1) (-1) 0 0.95).reliability (-2) = 1 ∧
    (WeibullParameters.mk (-1) (-1) 0 0.95).failure_density (-2) = 0 ∧
    (WeibullParameters.mk (-1) (-1) 0 0.95).hazard_rate (-2) = 0 := by
  refine ⟨?_, ?_, ?_⟩ <;>
    simp [WeibullParameters.reliability, WeibullParameters.failure_density,
      WeibullParameters.hazard_rate]

/-- C2 (amended): construction never validates (any real `shape`, `scale`,
`location`, `confidence_level` yield a model), and evaluation of
`reliability`/`failure_density`/`hazard_rate` at any `t ≤ location`
(negative `t` with `location ≥ 0` included) raises no error and returns the
boundary values `1`, `0`, `0`. -/
theorem C2_boundary_values (s sc loc cl t : ℝ) (h : t ≤ loc) :
    (WeibullParameters.mk s sc loc cl).reliability t = 1 ∧
    (WeibullParameters.mk s sc loc cl).failure_density t = 0 ∧
    (WeibullParameters.mk s sc loc cl).hazard_rate t = 0 := by
  refine ⟨?_, ?_, ?_⟩ <;>
    simp [WeibullParameters.reliability, WeibullParameters.failure_density,
      WeibullParameters.hazard_rate, h]

/-- C2 witness: a valid model `shape = 3 > 0`, `scale = 4 > 0`, `location = 5`
evaluated at `t = 2` with `0 ≤ 2 < 5` returns the boundary values. -/
theorem C2_boundary_values_witness :
    (2:ℝ) ≤ 5 ∧
    ((WeibullParameters.mk 3 4 5 0.95).reliability 2 = 1 ∧
     (WeibullParameters.mk 3 4 5 0.95).failure_density 2 = 0 ∧
     (WeibullParameters.mk 3 4 5 0.95).hazard_rate 2 = 0) :=
  ⟨by norm_num, C2_boundary_values 3 4 5 0.95 2 (by norm_num)⟩

/-! ## Claim C8: the median-life round trip -/

/-- C8: for every model with `shape > 0`, `scale > 0`, `location ≥ 0`,
`reliability (b_life 50) = 0.5` holds exactly (hence within the claimed
tolerance `1e-3`): `b_life 50 = γ + η·(ln 2)^(1/β)` lies strictly above the
location, and `((ln 2)^(1/β))^β = ln 2`, so the reliability is
`exp (-ln 2) = 1/2`. -/
theorem C8_b_life_median (p : WeibullParameters)
    (hβ : 0 < p.shape) (hη : 0 < p.scale) (hγ : 0 ≤ p.location) :
    |p.reliability (p.b_life 50) - 0.5| ≤ 1 / 1000 := by
  have hlog2 : (0:ℝ) < Real.log 2 := Real.log_pos (by norm_num)
  have hL : (0:ℝ) < Real.log 2 ^ (1 / p.shape) :=
    Real.rpow_pos_of_pos hlog2 _
  have harg : -Real.log (1 - 50 / 100) = Real.log 2 := by
    have : (1:ℝ) - 50 / 100 = 2⁻¹ := by norm_num
    rw [this, Real.log_inv, neg_neg]
  have hb : p.b_life 50 = p.location + p.scale * Real.log 2 ^ (1 / p.shape) := by
    unfold WeibullParameters.b_life
    rw [harg]
  have hgt : ¬ p.b_life 50 ≤ p.location := by
    rw [hb]
    nlinarith [mul_pos hη hL]
  have hdiff : p.b_life 50 - p.location = p.scale * Real.log 2 ^ (1 / p.shape) := by
    rw [hb]; ring
  have hpow : ((p.b_life 50 - p.location) / p.scale) ^ p.shape = Real.log 2 := by
    rw [hdiff, mul_div_cancel_left₀ _ (ne_of_gt hη), ← Real.rpow_mul (le_of_lt hlog2),
      one_div_mul_cancel (ne_of_gt hβ), Real.rpow_one]
  have : p.reliability (p.b_life 50) = 1 / 2 := by
    unfold WeibullParameters.reliability
    rw [if_neg hgt, hpow, Real.exp_neg, Real.exp_log (by norm_num)]
    norm_num
  rw [this]
  norm_num

/-- C8 witness: the round trip at the concrete model
`shape = 2, scale = 1, location = 0`. -/
theorem C8_b_life_median_witness :
    ((0:ℝ) < 2 ∧ (0:ℝ) < 1 ∧ (0:ℝ) ≤ 0) ∧
    |(WeibullParameters.mk 2 1 0 0.95).reliability
        ((WeibullParameters.mk 2 1 0 0.95).b_life 50) - 0.5| ≤ 1 / 1000 :=
  ⟨⟨by norm_num, by norm_num, le_refl 0⟩,
    C8_b_life_median (WeibullParameters.mk 2 1 0 0.95)
      (by norm_num) (by norm_num) (le_refl 0)⟩

/-! ## Remaining-useful-life solver (`test_server.py`, `calculate_remaining_useful_life`)

The Python function runs a `for _ in range(50)` binary search on `[low, high]`
initialised to `[current_hours, current_hours * 10]`; the loop body either
returns `mid - current_hours` early (tolerance met) or narrows one bound, and
after the loop `max(0, low - current_hours)` is returned. The loop is embedded
by structural recursion on the remaining iteration count. -/

/-- One embedding of the search loop: `rulSearch p target c fuel low high`
runs the remaining `fuel` iterations of the loop body of
`calculate_remaining_useful_life`, returning `max 0 (low - c)` on exhaustion. -/
noncomputable def rulSearch (p : WeibullParameters) (target c : ℝ) :
    ℕ → ℝ → ℝ → ℝ
  | 0, low, _ => max 0 (low - c)
  | n + 1, low, high =>
    let mid := (low + high) / 2
    if |p.reliability mid - target| < 0.001 then mid - c
    else if p.reliability mid > target then rulSearch p target c n mid high
    else rulSearch p target c n low mid

/-- `calculate_remaining_useful_life(weibull_params, current_hours,
current_reliability)`: target reliability `0.1`, bounds
`[current_hours, current_hours * 10]`, 50 iterations. The third argument is
accepted and unused, as in the source. -/
noncomputable def calculate_remaining_useful_life (p : WeibullParameters)
    (current_hours current_reliability : ℝ) : ℝ :=
  rulSearch p 0.1 current_hours 50 current_hours (current_hours * 10)

/-- Invariant of the search loop: if `c ≤ low ≤ high`, every exit path of
`rulSearch` yields a non-negative value (an early return yields
`mid - c ≥ 0` since `low ≤ mid`, exhaustion yields `max 0 _ ≥ 0`). -/
theorem rulSearch_nonneg (p : WeibullParameters) (target c : ℝ) :
    ∀ (n : ℕ) (low high : ℝ), c ≤ low → low ≤ high →
      0 ≤ rulSearch p target c n low high := by
  intro n
  induction n with
  | zero =>
    intro low high h1 _
    simp [rulSearch]
  | succ n ih =>
    intro low high h1 h2
    have hmid1 : low ≤ (low + high) / 2 := by linarith
    have hmid2 : (low + high) / 2 ≤ high := by linarith
    rw [rulSearch]
    by_cases htol : |p.reliability ((low + high) / 2) - target| < 0.001
    · simp only [htol, if_true]
      linarith
    · simp only [htol, if_false]
      by_cases hgt : p.reliability ((low + high) / 2) > target
      · simp only [hgt, if_true]
        exact ih _ _ (le_trans h1 hmid1) hmid2
      · simp only [hgt, if_false]
        exact ih _ _ h1 hmid1

/-- C5: for every model and `current_age > 0` the remaining-useful-life value
is non-negative: the search interval `[current_age, current_age·10]` is
well-ordered, the lower bound never drops below `current_age`, an early
return yields `mid - current_age ≥ 0`, and iteration exhaustion yields
`max 0 (low - current_age) ≥ 0`. (The interval, branch directions, 50-iteration
cap and exhaustion fallback of the claim are embedded verbatim in
`rulSearch`/`calculate_remaining_useful_life`.) -/
theorem C5_rul_nonneg (p : WeibullParameters) (c r : ℝ) (hc : 0 < c) :
    0 ≤ calculate_remaining_useful_life p c r := by
  unfold calculate_remaining_useful_life
  exact rulSearch_nonneg p 0.1 c 50 c (c * 10) le_rfl (by linarith)

/-- C5 witness: the solver value at the concrete model
`shape = 1, scale = 1, location = 0` and `current_age = 1` is non-negative. -/
theorem C5_rul_nonneg_witness :
    (0:ℝ) < 1 ∧
    0 ≤ calculate_remaining_useful_life (WeibullParameters.mk 1 1 0 0.95) 1 0 :=
  ⟨by norm_num, C5_rul_nonneg (WeibullParameters.mk 1 1 0 0.95) 1 0 (by norm_num)⟩

/-! ## Claim C10: the solver at `current_age = 0` -/

/-- With `low = high = 0` every midpoint is `0`; with `location ≥ 0` the
reliability there is the early-return value `1`, which misses the tolerance
band around `0.1` and exceeds the target, so the loop keeps `low = 0` and
exhaustion returns `max 0 (0 - 0) = 0`. -/
theorem rulSearch_zero (p : WeibullParameters) (hloc : 0 ≤ p.location) :
    ∀ n : ℕ, rulSearch p 0.1 0 n 0 0 = 0 := by
  intro n
  induction n with
  | zero => simp [rulSearch]
  | succ n ih =>
    have hrel : p.reliability ((0 + 0) / 2) = 1 := by
      unfold WeibullParameters.reliability
      rw [if_pos (by simpa using hloc)]
    have habs : |(1:ℝ) - 0.1| = 0.9 := by
      rw [abs_of_pos] <;> norm_num
    rw [rulSearch]
    simp only [hrel]
    rw [if_neg (by rw [habs]; norm_num), if_pos (by norm_num)]
    simpa using ih

/-- C10: for every model with `location ≥ 0` and any (unused)
`current_reliability`, the remaining-useful-life solver called with
`current_age = 0` returns exactly `0`: the degenerate interval `[0, 0]` keeps
every midpoint at `0`, where reliability is `1 > 0.1`, so after the
50 iterations the result is `max(0, 0 - 0) = 0`. -/
theorem C10_rul_at_zero_age (p : WeibullParameters) (r : ℝ) (hloc : 0 ≤ p.location) :
    calculate_remaining_useful_life p 0 r = 0 := by
  unfold calculate_remaining_useful_life
  simpa using rulSearch_zero p hloc 50

/-- C10 witness: the solver at the concrete model
`shape = 2, scale = 1000, location = 0` with `current_age = 0` returns `0`. -/
theorem C10_rul_at_zero_age_witness :
    (0:ℝ) ≤ 0 ∧
    calculate_remaining_useful_life (WeibullParameters.mk 2 1000 0 0.95) 0 0.5 = 0 :=
  ⟨le_refl 0, C10_rul_at_zero_age (WeibullParameters.mk 2 1000 0 0.95) 0.5 (le_refl 0)⟩

/-! ## Parameter estimation (`reliability_engine.py`, class `WeibullAnalysis`)

`np.mean` and `np.var` are the population mean and variance. The
method-of-moments shape search is a `for _ in range(100)` loop adjusting the
shape by `±0.01` from `1.0` until the theoretical coefficient of variation
matches the sample one within `0.001`, clamped (with a break) at `0.1`; the
loop body is embedded by structural recursion on the remaining iterations.
The Python body first steps the shape and then tests the `shape <= 0.1`
clamp; the embedding inlines the stepped value into that test, which is the
identical computation. -/

/-- `np.mean(data)`. -/
noncomputable def npMean (l : List ℝ) : ℝ := l.sum / l.length

/-- `np.var(data)` (population variance). -/
noncomputable def npVar (l : List ℝ) : ℝ :=
  (l.map fun x => (x - npMean l) ^ 2).sum / l.length

/-- The theoretical coefficient of variation of a Weibull shape value:
`sqrt(Γ(1+2/s)/Γ(1+1/s)² - 1)`, as computed inside the moments loop. -/
noncomputable def theoreticalCV (shape : ℝ) : ℝ :=
  Real.sqrt (Real.Gamma (1 + 2 / shape) / Real.Gamma (1 + 1 / shape) ^ 2 - 1)

/-- The `for _ in range(100)` shape-matching loop of `_method_of_moments`,
with `fuel` remaining iterations: break (returning the current shape) when
the CVs agree within `0.001`; otherwise step by `+0.01` when the theoretical
CV is too high, else `-0.01`; if the stepped shape falls to `0.1` or below,
set it to `0.1` and break. -/
noncomputable def momentsLoop (cv : ℝ) : ℕ → ℝ → ℝ
  | 0, shape => shape
  | n + 1, shape =>
    if |theoreticalCV shape - cv| < 0.001 then shape
    else if theoreticalCV shape > cv then
      if shape + 0.01 ≤ 0.1 then 0.1 else momentsLoop cv n (shape + 0.01)
    else
      if shape - 0.01 ≤ 0.1 then 0.1 else momentsLoop cv n (shape - 0.01)

/-- `WeibullAnalysis._method_of_moments`: sample CV, 100-iteration shape
search started at `1.0`, then `scale = mean / Γ(1 + 1/shape)`, location `0`. -/
noncomputable def methodOfMoments (failure_times : List ℝ) : WeibullParameters :=
  WeibullParameters.mk
    (momentsLoop (Real.sqrt (npVar failure_times) / npMean failure_times) 100 1)
    (npMean failure_times /
      Real.Gamma (1 + 1 / momentsLoop (Real.sqrt (npVar failure_times) / npMean failure_times) 100 1))
    0 0.95

/-- Abstract outcome of `scipy.optimize.minimize` (an external library call):
whether it converged, and the optimised shape and scale. `_mle_estimation`
only reads these three pieces of the scipy result object. -/
structure OptResult where
  success : Bool
  shape : ℝ
  scale : ℝ

/-- `WeibullAnalysis._mle_estimation`, parameterised by the abstract
optimizer outcome: on `success` the optimised parameters (location `0`) are
returned, otherwise the documented fallback to `_method_of_moments`. -/
noncomputable def mleEstimation (opt : List ℝ → OptResult) (failure_times : List ℝ) :
    WeibullParameters :=
  if (opt failure_times).success then
    WeibullParameters.mk (opt failure_times).shape (opt failure_times).scale 0 0.95
  else methodOfMoments failure_times

/-- `WeibullAnalysis.estimate_parameters(failure_times, method)`: dispatch on
the `method` string; an unrecognised method raises `ValueError` (modelled as
`Except.error`). The source contains no check of the sample size on any
branch. -/
noncomputable def estimate_parameters (opt : List ℝ → OptResult)
    (failure_times : List ℝ) (method : String) : Except String WeibullParameters :=
  if method = "mle" then Except.ok (mleEstimation opt failure_times)
  else if method = "moments" then Except.ok (methodOfMoments failure_times)
  else Except.error "Method must be mle or moments"

/-- A concrete non-converged optimizer outcome, used to instantiate the
abstract scipy parameter at concrete inputs. -/
def optFail : List ℝ → OptResult := fun _ => OptResult.mk false 0 0

/-! ## Claim C1: no InsufficientData error for samples of fewer than 3 points -/

/-- C1 counterexample: the two-point sample `[100, 200]` is estimated without
any InsufficientData error: `estimate_parameters` returns a model (`ok`) for
method `moments` and for method `mle` alike (here with a non-converged
optimizer, exercising the moments fallback), refuting the claim that samples
of fewer than 3 points fail for both methods. -/
theorem C1_counterexample :
    ([100, 200] : List ℝ).length < 3 ∧
    (estimate_parameters optFail [100, 200] "moments").isOk = true ∧
    (estimate_parameters optFail [100, 200] "mle").isOk = true := by
  refine ⟨by norm_num, ?_, ?_⟩ <;>
    simp [estimate_parameters, Except.isOk, Except.toBool]

/-- C1 (amended): `estimate_parameters` performs no sample-size check at all:
for every sample (of any length, 0 and 2 included) and either recognised
method it returns a model, estimated from whatever data was supplied; only an
unrecognised method string fails (with `ValueError`). -/
theorem C1_no_insufficient_data_error (opt : List ℝ → OptResult)
    (failure_times : List ℝ) (method : String)
    (h : method = "mle" ∨ method = "moments") :
    ∃ p, estimate_parameters opt failure_times method = Except.ok p := by
  rcases h with h | h <;> subst h
  · exact ⟨mleEstimation opt failure_times, by simp [estimate_parameters]⟩
  · exact ⟨methodOfMoments failure_times, by simp [estimate_parameters]⟩

/-- C1 witness: the amended statement at the concrete two-point sample
`[100, 200]` with method `moments`. -/
theorem C1_no_insufficient_data_error_witness :
    ("moments" = "mle" ∨ "moments" = "moments") ∧
    ∃ p, estimate_parameters optFail [100, 200] "moments" = Except.ok p :=
  ⟨Or.inr rfl, C1_no_insufficient_data_error optFail [100, 200] "moments" (Or.inr rfl)⟩

/-! ## Claim C9: the moments shape estimate stays in `[0.1, 2.0]` -/

/-- Bounds invariant of the moments shape loop: starting from any
`shape ≥ 0.1`, the loop's value stays at least `0.1` (the clamp) and can grow
by at most `0.01` per remaining iteration. -/
theorem momentsLoop_bounds (cv : ℝ) :
    ∀ (n : ℕ) (s : ℝ), 0.1 ≤ s →
      0.1 ≤ momentsLoop cv n s ∧ momentsLoop cv n s ≤ s + n * 0.01 := by
  intro n
  induction n with
  | zero =>
    intro s hs
    rw [momentsLoop]
    exact ⟨hs, by norm_num⟩
  | succ n ih =>
    intro s hs
    rw [momentsLoop]
    by_cases h1 : |theoreticalCV s - cv| < 0.001
    · rw [if_pos h1]
      refine ⟨hs, ?_⟩
      have : (0:ℝ) ≤ (n + 1 : ℕ) * 0.01 := by positivity
      push_cast at this ⊢
      linarith
    · rw [if_neg h1]
      by_cases h2 : theoreticalCV s > cv
      · rw [if_pos h2]
        by_cases h3 : s + 0.01 ≤ 0.1
        · rw [if_pos h3]
          refine ⟨le_refl _, ?_⟩
          have : (0:ℝ) ≤ (n + 1 : ℕ) * 0.01 := by positivity
          push_cast at this ⊢
          linarith
        · rw [if_neg h3]
          obtain ⟨a, b⟩ := ih (s + 0.01) (by linarith)
          refine ⟨a, ?_⟩
          push_cast at b ⊢
          linarith
      · rw [if_neg h2]
        by_cases h3 : s - 0.01 ≤ 0.1
        · rw [if_pos h3]
          refine ⟨le_refl _, ?_⟩
          have : (0:ℝ) ≤ (n + 1 : ℕ) * 0.01 := by positivity
          push_cast at this ⊢
          linarith
        · rw [if_neg h3]
          obtain ⟨a, b⟩ := ih (s - 0.01) (by linarith)
          refine ⟨a, ?_⟩
          push_cast at b ⊢
          linarith

/-- C9: for every sample with nonzero mean, the method-of-moments shape lies
in the closed interval `[0.1, 2.0]`: the search starts at `1.0`, can take at
most 100 steps of `+0.01` (so it never exceeds `1 + 100·0.01 = 2`) and is
clamped below at `0.1`; the MLE fallback (a non-converged optimizer) returns
the very same moments estimate, so it obeys the same bounds. -/
theorem C9_moments_shape_in_interval (failure_times : List ℝ)
    (hmean : npMean failure_times ≠ 0) :
    (0.1 ≤ (methodOfMoments failure_times).shape ∧
      (methodOfMoments failure_times).shape ≤ 2) ∧
    ∀ opt : List ℝ → OptResult, (opt failure_times).success = false →
      0.1 ≤ (mleEstimation opt failure_times).shape ∧
        (mleEstimation opt failure_times).shape ≤ 2 := by
  have key : 0.1 ≤ (methodOfMoments failure_times).shape ∧
      (methodOfMoments failure_times).shape ≤ 2 := by
    obtain ⟨a, b⟩ :=
      momentsLoop_bounds (Real.sqrt (npVar failure_times) / npMean failure_times)
        100 1 (by norm_num)
    refine ⟨a, ?_⟩
    unfold methodOfMoments
    push_cast at b
    simp only
    linarith
  refine ⟨key, fun opt hfail => ?_⟩
  have : mleEstimation opt failure_times = methodOfMoments failure_times := by
    unfold mleEstimation
    rw [hfail]
    simp
  rw [this]
  exact key

/-- C9 witness: the bounds at the concrete sample `[1, 2, 3]`, whose mean
`2` is nonzero. -/
theorem C9_moments_shape_in_interval_witness :
    npMean [1, 2, 3] ≠ 0 ∧
    ((0.1 ≤ (methodOfMoments [1, 2, 3]).shape ∧
       (methodOfMoments [1, 2, 3]).shape ≤ 2) ∧
     ∀ opt : List ℝ → OptResult, (opt [1, 2, 3]).success = false →
       0.1 ≤ (mleEstimation opt [1, 2, 3]).shape ∧
         (mleEstimation opt [1, 2, 3]).shape ≤ 2) := by
  have hmean : npMean [1, 2, 3] ≠ 0 := by
    unfold npMean
    norm_num
  exact ⟨hmean, C9_moments_shape_in_interval [1, 2, 3] hmean⟩

/-! ## Goodness of fit (`reliability_engine.py`, `WeibullAnalysis.goodness_of_fit`)

The Kolmogorov–Smirnov branch evaluates the model CDF at the sample points in
their *input* order (`for t in data` with `data = np.array(failure_times)`,
unsorted) and zips them against `(i+1)/n`; only the Anderson–Darling and R²
branches sort. Python's `max(...)` over a nonempty sequence is a left fold of
binary `max` (it raises on an empty sequence, which cannot arise under the
claims' `n ≥ 3` hypotheses; the embedding gives that dead case the junk
value `0`). -/

/-- Boolean ascending comparison on reals, the key used by `np.sort`. -/
noncomputable def leBool (a b : ℝ) : Bool := decide (a ≤ b)

/-- Python `max` over a sequence: a left fold of binary `max` (junk value `0`
for the empty sequence, which raises in Python and is unreachable here). -/
noncomputable def pyMax : List ℝ → ℝ
  | [] => 0
  | x :: xs => xs.foldl max x

/-- The Kolmogorov–Smirnov statistic of `goodness_of_fit`:
`max |(1 - R(t_i)) - (i+1)/n|` over the sample **in input order**. -/
noncomputable def ks_statistic (failure_times : List ℝ) (params : WeibullParameters) : ℝ :=
  pyMax
    (((failure_times.map fun t => 1 - params.reliability t).zip
        ((List.range failure_times.length).map
          fun i => ((i + 1 : ℕ) : ℝ) / failure_times.length)).map
      fun q => |q.1 - q.2|)

/-- Modelled from the spec: the Kolmogorov–Smirnov statistic computed on the
*internally sorted* sample, "maximum absolute deviation between the model's
CDF at each (sorted) sample point and the empirical CDF (rank)/n". -/
noncomputable def ks_spec (failure_times : List ℝ) (params : WeibullParameters) : ℝ :=
  ks_statistic (failure_times.mergeSort leBool) params

/-! ## Claim C3: the KS statistic and sample order -/

/-- The concrete model `shape = 1, scale = 10, location = 10` used in the C3
counterexample: its CDF is `0` at `t = 5` and `1 - exp (-1)` at `t = 20`. -/
noncomputable def mC3 : WeibullParameters := WeibullParameters.mk 1 10 10 0.95

/-- C3 counterexample: with the model `mC3` the size-3 samples `[20, 5, 5]`
and `[5, 5, 20]` are permutations of one another, yet the code's KS
statistic differs on them (`1` versus `2/3`, since the unsorted CDF values
are paired positionally with `(i+1)/n`). This refutes permutation
invariance, and with it the claim that the statistic is computed over the
internally sorted sample. -/
theorem C3_counterexample :
    ks_statistic [20, 5, 5] mC3 ≠ ks_statistic [5, 5, 20] mC3 := by
  have r5 : mC3.reliability 5 = 1 := by
    unfold mC3 WeibullParameters.reliability
    rw [if_pos (by norm_num)]
  have r20 : mC3.reliability 20 = Real.exp (-1) := by
    unfold mC3 WeibullParameters.reliability
    rw [if_neg (by norm_num)]
    norm_num
  have hE := Real.exp_one_gt_d9
  have hEpos := Real.exp_pos 1
  have hexppos : (0:ℝ) < Real.exp (-1) := Real.exp_pos _
  have hexp1 : Real.exp (-1) < 1 / 2 := by
    rw [Real.exp_neg, inv_lt_comm₀ hEpos (by norm_num)]
    linarith
  have lhs_eq : ks_statistic [20, 5, 5] mC3 = 1 := by
    unfold ks_statistic pyMax
    norm_num [show ([20, 5, 5] : List ℝ).length = 3 from rfl,
      show List.range 3 = [0, 1, 2] from rfl, r5, r20]
    constructor
    · rw [abs_le]
      constructor <;> linarith
    · rw [abs_of_nonneg] <;> norm_num
  have rhs_eq : ks_statistic [5, 5, 20] mC3 = 2 / 3 := by
    unfold ks_statistic pyMax
    norm_num [show ([5, 5, 20] : List ℝ).length = 3 from rfl,
      show List.range 3 = [0, 1, 2] from rfl, r5, r20]
    rw [abs_of_nonneg (by norm_num : (0:ℝ) ≤ 1/3),
      abs_of_nonneg (by norm_num : (0:ℝ) ≤ 2/3),
      max_eq_right (by norm_num : (1:ℝ)/3 ≤ 2/3),
      max_eq_left (by linarith : Real.exp (-1) ≤ 2/3)]
  rw [lhs_eq, rhs_eq]
  norm_num

/-- C3 (amended): the code's KS statistic pairs the sample **in input order**
with the ranks `(i+1)/n` — no internal sorting happens, so the statistic is
not permutation invariant. It agrees with the spec's sorted-sample formula
exactly when the input sample is already sorted ascending. -/
theorem C3_ks_agrees_on_sorted (failure_times : List ℝ) (params : WeibullParameters)
    (h : List.Pairwise (fun a b : ℝ => a ≤ b) failure_times) :
    ks_spec failure_times params = ks_statistic failure_times params := by
  unfold ks_spec
  rw [List.mergeSort_of_sorted (h.imp fun hab => by simp [leBool, hab])]

/-- C3 witness: on the already-sorted size-3 sample `[5, 5, 20]` the code's
statistic and the spec's sorted-sample statistic coincide. -/
theorem C3_ks_agrees_on_sorted_witness :
    List.Pairwise (fun a b : ℝ => a ≤ b) [5, 5, 20] ∧
    ks_spec [5, 5, 20] (WeibullParameters.mk 3 7 0 0.95) =
      ks_statistic [5, 5, 20] (WeibullParameters.mk 3 7 0 0.95) := by
  have h : List.Pairwise (fun a b : ℝ => a ≤ b) [5, 5, 20] := by
    simp only [List.pairwise_cons, List.mem_cons, List.not_mem_nil]
    norm_num
  exact ⟨h, C3_ks_agrees_on_sorted [5, 5, 20] (WeibullParameters.mk 3 7 0 0.95) h⟩

/-! ## Anderson–Darling statistic

The source computes, over the sorted sample `s` of size `n`,
`-n - sum_(i=1..n) (2i-1)·(ln(1 - R(s[i-1])) + ln(R(s[n-i]))) / n` with no
clamping of the logarithm arguments. A float `np.log` of a non-positive
argument is non-finite (`-inf`/`nan`); the embedding models that outcome as
`none`, which then propagates through the sum, so `none` marks exactly the
runs whose float statistic is non-finite. The index `i` is shifted to
`j = i - 1 ∈ {0, …, n-1}`. -/

/-- `np.log`, with `none` standing for the non-finite float results on
non-positive arguments. -/
noncomputable def npLog (x : ℝ) : Option ℝ :=
  if 0 < x then some (Real.log x) else none

/-- `np.sum` over possibly non-finite summands: finite only if all are. -/
noncomputable def optionSum : List (Option ℝ) → Option ℝ
  | [] => some 0
  | o :: rest => o.bind fun a => (optionSum rest).map fun s => a + s

/-- The Anderson–Darling statistic of `goodness_of_fit` (no clamping,
exactly the source's formula on the sorted sample). -/
noncomputable def ad_statistic (failure_times : List ℝ) (params : WeibullParameters) :
    Option ℝ :=
  (optionSum ((List.range failure_times.length).map fun j =>
      (npLog (1 - params.reliability
          ((failure_times.mergeSort leBool).getD j 0))).bind fun a =>
        (npLog (params.reliability
            ((failure_times.mergeSort leBool).getD
              (failure_times.length - 1 - j) 0))).map fun b =>
          ((2 * j + 1 : ℕ) : ℝ) * (a + b))).map
    fun S => -(failure_times.length : ℝ) - S / failure_times.length

/-! ## Claim C4: no clamping before the logarithms -/

/-- C4 counterexample: on the size-3 sample `[10, 20, 30]` and the model
`shape = 1, scale = 10, location = 10` (a valid model with
`location = min(sample)`), the first sorted point has reliability exactly
`1`, so the formula takes `ln(1 - 1) = ln 0` — nothing is clamped — and the
resulting statistic is non-finite (`none`), refuting the claim that the
returned statistic is always finite. -/
theorem C4_counterexample :
    ([10, 20, 30] : List ℝ).length = 3 ∧
    ad_statistic [10, 20, 30] (WeibullParameters.mk 1 10 10 0.95) = none := by
  refine ⟨rfl, ?_⟩
  have hsorted : ([10, 20, 30] : List ℝ).mergeSort leBool = [10, 20, 30] := by
    apply List.mergeSort_of_sorted
    simp only [List.pairwise_cons, List.mem_cons, List.not_mem_nil, leBool]
    norm_num
  have r10 : (WeibullParameters.mk 1 10 10 0.95).reliability 10 = 1 := by
    unfold WeibullParameters.reliability
    rw [if_pos (by norm_num)]
  unfold ad_statistic optionSum
  rw [show List.range ([10, 20, 30] : List ℝ).length = [0, 1, 2] from rfl]
  simp only [List.map_cons, hsorted, List.getD_cons_zero, r10]
  rw [show (1:ℝ) - 1 = 0 from by norm_num]
  rw [show npLog 0 = none from by unfold npLog; rw [if_neg (lt_irrefl 0)]]
  rfl

/-- C4 (amended): the Anderson–Darling computation performs no clamping: when
some sample point lies at or below the model's location the logarithm of the
exact zero `1 - R` makes the statistic non-finite; but whenever every sample
point lies strictly above the location (and the scale is positive) every
reliability value lies strictly between 0 and 1, both logarithms are of
positive arguments, and the returned statistic is a finite number. -/
theorem C4_ad_finite_above_location (failure_times : List ℝ)
    (params : WeibullParameters) (hscale : 0 < params.scale)
    (hdata : ∀ t ∈ failure_times, params.location < t) :
    (ad_statistic failure_times params).isSome = true := by
  have hrel : ∀ t ∈ failure_times,
      0 < params.reliability t ∧ params.reliability t < 1 := by
    intro t ht
    have hloc := hdata t ht
    unfold WeibullParameters.reliability
    rw [if_neg (not_le.mpr hloc)]
    refine ⟨Real.exp_pos _, ?_⟩
    rw [Real.exp_lt_one_iff, neg_lt, neg_zero]
    exact Real.rpow_pos_of_pos (div_pos (by linarith) hscale) _
  have hmem : ∀ j, j < failure_times.length →
      (failure_times.mergeSort leBool).getD j 0 ∈ failure_times := by
    intro j hj
    have hlen : (failure_times.mergeSort leBool).length = failure_times.length :=
      List.length_mergeSort _
    have hj' : j < (failure_times.mergeSort leBool).length := by rw [hlen]; exact hj
    rw [List.getD_eq_getElem _ _ hj']
    exact List.mem_mergeSort.mp (List.getElem_mem hj')
  have hsum : ∀ l : List (Option ℝ), (∀ o ∈ l, o.isSome = true) →
      (optionSum l).isSome = true := by
    intro l
    induction l with
    | nil => intro _; rfl
    | cons o rest ih =>
      intro h
      obtain ⟨a, ha⟩ := Option.isSome_iff_exists.mp (h o (List.mem_cons_self o rest))
      obtain ⟨s, hs⟩ := Option.isSome_iff_exists.mp
        (ih fun o' ho' => h o' (List.mem_cons_of_mem o ho'))
      unfold optionSum
      rw [ha, hs]
      rfl
  unfold ad_statistic
  rw [Option.isSome_map']
  apply hsum
  intro o ho
  obtain ⟨j, hj, rfl⟩ := List.mem_map.mp ho
  have hjlt : j < failure_times.length := List.mem_range.mp hj
  have hn : failure_times.length - 1 - j < failure_times.length := by omega
  obtain ⟨h1, h2⟩ := hrel _ (hmem j hjlt)
  obtain ⟨h3, _⟩ := hrel _ (hmem _ hn)
  rw [show npLog (1 - params.reliability ((failure_times.mergeSort leBool).getD j 0)) =
      some (Real.log (1 - params.reliability
        ((failure_times.mergeSort leBool).getD j 0))) from by
    unfold npLog; rw [if_pos (by linarith)]]
  rw [show npLog (params.reliability ((failure_times.mergeSort leBool).getD
        (failure_times.length - 1 - j) 0)) =
      some (Real.log (params.reliability ((failure_times.mergeSort leBool).getD
        (failure_times.length - 1 - j) 0))) from by
    unfold npLog; rw [if_pos h3]]
  rfl

/-- C4 witness: on the sample `[1, 2, 3]` and the model
`shape = 1, scale = 1, location = 0` (every point strictly above location)
the statistic is finite. -/
theorem C4_ad_finite_above_location_witness :
    ((0:ℝ) < 1 ∧ ∀ t ∈ ([1, 2, 3] : List ℝ), (0:ℝ) < t) ∧
    (ad_statistic [1, 2, 3] (WeibullParameters.mk 1 1 0 0.95)).isSome = true := by
  have hd : ∀ t ∈ ([1, 2, 3] : List ℝ), (0:ℝ) < t := by
    intro t ht
    simp only [List.mem_cons, List.not_mem_nil, or_false] at ht
    rcases ht with rfl | rfl | rfl <;> norm_num
  exact ⟨⟨by norm_num, hd⟩,
    C4_ad_finite_above_location [1, 2, 3] (WeibullParameters.mk 1 1 0 0.95)
      (by norm_num) hd⟩

/-! ## Failure-analysis toolkit (`reliability_engine.py`, `RCFAAnalysis.pareto_analysis`
and `PFMEAAnalysis`)

A failure-mode record is a Python dict; the fields the two operations read or
write are embedded as one record type (fields the caller did not set are
simply whatever initial values it supplied). These computations only add,
multiply, divide and compare rationals and integers, so they are embedded
executably over `ℚ`/`ℤ`.

Python's `sorted(..., key=..., reverse=True)` is a stable sort placing higher
keys first; it is embedded as `List.mergeSort` (also stable) with the
comparison `b.key ≤ a.key`.

Both Python functions *mutate* the caller's dicts in place
(`mode['percentage'] = ...`, `mode['rpn'] = ...`); the returned structures
hold the very same dict objects. The embedding of `pfmea_worksheet`
therefore returns, alongside the result, the post-call contents of the
caller's list (same order, fields updated), which is what the in-place
`for mode in failure_modes: mode['rpn'] = ...` loop leaves behind. -/

/-- A failure-mode record (Python dict), with the fields read or written by
`pareto_analysis` and `pfmea_worksheet`. -/
structure FailureMode where
  name : String
  frequency : ℚ
  severity : ℤ
  occurrence : ℤ
  detection : ℤ
  rpn : ℤ
  percentage : ℚ
  cumulative_percentage : ℚ
deriving DecidableEq

/-- The sort key of `sorted(failure_modes, key=lambda x: x['frequency'],
reverse=True)`: descending by frequency (stable for ties). -/
def descFreq (a b : FailureMode) : Bool := decide (b.frequency ≤ a.frequency)

/-- The annotation loop of `pareto_analysis`: walk the sorted list keeping
the running cumulative percentage, writing `percentage` and
`cumulative_percentage` into each record. -/
def annotate (total : ℚ) : ℚ → List FailureMode → List FailureMode
  | _, [] => []
  | cum, m :: ms =>
    { m with
      percentage := m.frequency / total * 100
      cumulative_percentage := cum + m.frequency / total * 100 } ::
      annotate total (cum + m.frequency / total * 100) ms

/-- `sorted_modes` of `pareto_analysis`. -/
def sortedModes (failure_modes : List FailureMode) : List FailureMode :=
  failure_modes.mergeSort descFreq

/-- `total_frequency` of `pareto_analysis` (summed over the sorted list, as
in the source). -/
def totalFrequency (failure_modes : List FailureMode) : ℚ :=
  ((sortedModes failure_modes).map (·.frequency)).sum

/-- The sorted list after the annotation loop has run. -/
def annotatedModes (failure_modes : List FailureMode) : List FailureMode :=
  annotate (totalFrequency failure_modes) 0 (sortedModes failure_modes)

/-- `vital_few` of `pareto_analysis`: the list comprehension filtering the
(annotated) sorted modes by `cumulative_percentage <= 80`. -/
def vitalFew (failure_modes : List FailureMode) : List FailureMode :=
  (annotatedModes failure_modes).filter fun m => decide (m.cumulative_percentage ≤ 80)

/-- The dictionary returned by `pareto_analysis` (the `methodology` string
constant is omitted). -/
structure ParetoResult where
  failure_modes : List FailureMode
  vital_few : List FailureMode
  vital_few_count : ℕ
  vital_few_percentage : ℚ
deriving DecidableEq

/-- `RCFAAnalysis.pareto_analysis`: sort descending by frequency, annotate
with percentages and running cumulative percentages, filter the `≤ 80`
cumulative band, and report `vital_few[-1]['cumulative_percentage']` (or `0`
for an empty `vital_few`). -/
def pareto_analysis (failure_modes : List FailureMode) : ParetoResult :=
  ParetoResult.mk
    (annotatedModes failure_modes)
    (vitalFew failure_modes)
    (vitalFew failure_modes).length
    ((vitalFew failure_modes).getLast?.elim 0 (·.cumulative_percentage))

/-- `PFMEAAnalysis.calculate_rpn`: RPN = severity × occurrence × detection. -/
def calculate_rpn (severity occurrence detection : ℤ) : ℤ :=
  severity * occurrence * detection

/-- The in-place `for mode in failure_modes: mode['rpn'] = calculate_rpn(...)`
loop of `pfmea_worksheet`: the caller's records, in their original order,
with `rpn` written into each. -/
def pfmeaAnnotate : List FailureMode → List FailureMode
  | [] => []
  | m :: ms =>
    { m with rpn := calculate_rpn m.severity m.occurrence m.detection } ::
      pfmeaAnnotate ms

/-- The sort key of `sorted(failure_modes, key=lambda x: x['rpn'],
reverse=True)`. -/
def descRpn (a b : FailureMode) : Bool := decide (b.rpn ≤ a.rpn)

/-- The dictionary returned by `pfmea_worksheet` (constant strings omitted). -/
structure PfmeaResult where
  equipment_id : String
  failure_modes : List FailureMode
  high_risk_modes : List FailureMode
  medium_risk_modes : List FailureMode
  low_risk_modes : List FailureMode
deriving DecidableEq

/-- `PFMEAAnalysis.pfmea_worksheet`: writes `rpn` into each caller record,
sorts descending by RPN, and buckets by the fixed 200/100 thresholds. The
second component is the post-call contents of the caller-supplied list (the
in-place mutation observed by the caller). -/
def pfmea_worksheet (equipment_id : String) (failure_modes : List FailureMode) :
    PfmeaResult × List FailureMode :=
  let annotated := pfmeaAnnotate failure_modes
  let sorted_modes := annotated.mergeSort descRpn
  (PfmeaResult.mk equipment_id sorted_modes
    (sorted_modes.filter fun m => decide (200 ≤ m.rpn))
    (sorted_modes.filter fun m => decide (100 ≤ m.rpn) && decide (m.rpn < 200))
    (sorted_modes.filter fun m => decide (m.rpn < 100)),
   annotated)

/-! ## Claim C7: the toolkit operations and the caller's records

`pareto_analysis` above models the *returned* structure. Python additionally
mutates the caller's dicts while building it: the annotation loop assigns
`mode['percentage']` and `mode['cumulative_percentage']` through the sorted
list of references, so after the call the caller-supplied list — whose order
of references is untouched — holds the annotated records. This post-call
contents is modelled by `paretoMutate` below: each record is paired with its
original position, the indexed records are sorted by the outcome of Python's
stable descending sort (`List.enumLE descFreq`: descending frequency, ties
by original position) and annotated, and the record at original position `i`
of the caller's list is then the annotated record carrying index `i`. The
records are assumed to be distinct dict objects (as when parsed from JSON). -/

/-- The ordering realised by Python's stable `sorted(...,
key=lambda x: x['frequency'], reverse=True)` on the indexed records:
descending frequency with ties in original-position order. -/
def descFreqIdx : ℕ × FailureMode → ℕ × FailureMode → Bool := List.enumLE descFreq

/-- The Pareto annotation loop acting on indexed records: identical to
`annotate`, with each record's original position carried along. -/
def annotateIdx (total : ℚ) : ℚ → List (ℕ × FailureMode) → List (ℕ × FailureMode)
  | _, [] => []
  | cum, p :: ps =>
    (p.1, { p.2 with
      percentage := p.2.frequency / total * 100
      cumulative_percentage := cum + p.2.frequency / total * 100 }) ::
      annotateIdx total (cum + p.2.frequency / total * 100) ps

/-- Post-call contents of the caller-supplied list after `pareto_analysis`:
in original order, each position holds the annotated version of its record
(found by its original index among the annotated sorted records). -/
def paretoMutate (l : List FailureMode) : List FailureMode :=
  (List.range l.length).map fun i =>
    (((annotateIdx (totalFrequency l) 0 (l.enum.mergeSort descFreqIdx)).find?
        fun p => decide (p.1 = i)).map (·.2)).getD (FailureMode.mk "" 0 0 0 0 0 0 0)

/-- The fields of a failure-mode record other than the two percentage fields
written by the Pareto annotation loop. -/
def paretoRest (m : FailureMode) : String × ℚ × ℤ × ℤ × ℤ × ℤ :=
  (m.name, m.frequency, m.severity, m.occurrence, m.detection, m.rpn)

theorem annotateIdx_map_fst (t : ℚ) :
    ∀ (ps : List (ℕ × FailureMode)) (c : ℚ),
      (annotateIdx t c ps).map Prod.fst = ps.map Prod.fst := by
  intro ps
  induction ps with
  | nil => intro c; rfl
  | cons p ps ih =>
    intro c
    simp only [annotateIdx, List.map_cons, List.cons.injEq]
    exact ⟨trivial, ih _⟩

theorem annotateIdx_map_snd (t : ℚ) :
    ∀ (ps : List (ℕ × FailureMode)) (c : ℚ),
      (annotateIdx t c ps).map (·.2) = annotate t c (ps.map (·.2)) := by
  intro ps
  induction ps with
  | nil => intro c; rfl
  | cons p ps ih =>
    intro c
    simp only [annotateIdx, annotate, List.map_cons, List.cons.injEq]
    exact ⟨trivial, ih _⟩

/-- The indexed annotation loop only writes the two percentage fields. -/
theorem annotateIdx_proj (t : ℚ) :
    ∀ (ps : List (ℕ × FailureMode)) (c : ℚ),
      (annotateIdx t c ps).map (fun p => (p.1, paretoRest p.2)) =
        ps.map fun p => (p.1, paretoRest p.2) := by
  intro ps
  induction ps with
  | nil => intro c; rfl
  | cons p ps ih =>
    intro c
    simp only [annotateIdx, paretoRest, List.map_cons, List.cons.injEq]
    exact ⟨trivial, ih _⟩

/-- Every record leaving the indexed annotation loop carries its percentage
annotation `frequency / total · 100`. -/
theorem annotateIdx_percentage (t : ℚ) :
    ∀ (ps : List (ℕ × FailureMode)) (c : ℚ) (p : ℕ × FailureMode),
      p ∈ annotateIdx t c ps → p.2.percentage = p.2.frequency / t * 100 := by
  intro ps
  induction ps with
  | nil => intro c p hp; exact absurd hp (List.not_mem_nil p)
  | cons q ps ih =>
    intro c p hp
    rw [annotateIdx, List.mem_cons] at hp
    rcases hp with rfl | hp
    · rfl
    · exact ih _ p hp

/-- Reconstructing a list from its positions: mapping `f` over the records
read back by position equals mapping `f` over the list. -/
theorem range_map_getD {α β : Type} (l : List α) (d : α) (f : α → β) :
    (List.range l.length).map (fun i => f (l.getD i d)) = l.map f := by
  induction l with
  | nil => rfl
  | cons x xs ih =>
    rw [List.length_cons, List.range_succ_eq_map, List.map_cons, List.map_map,
      List.map_cons]
    refine congrArg₂ _ (by rw [List.getD_cons_zero]) ?_
    calc (List.range xs.length).map ((fun i => f ((x :: xs).getD i d)) ∘ Nat.succ)
        = (List.range xs.length).map fun i => f (xs.getD i d) :=
          List.map_congr_left fun a _ => by simp [List.getD_cons_succ]
      _ = xs.map f := ih

/-- Each original position appears in `enum` with its record. -/
theorem getD_mem_enum (l : List FailureMode) (d : FailureMode) (i : ℕ)
    (h : i < l.length) : (i, l.getD i d) ∈ l.enum := by
  have hlen : i < l.enum.length := by rw [List.enum_length]; exact h
  rw [List.getD_eq_getElem l d h]
  rw [← List.getElem_enum l i hlen]
  exact List.getElem_mem hlen

/-- In the annotated indexed list, looking up a position that carried record
`v` (positions being distinct) finds exactly the annotated version of `v`:
same position, same fields apart from the two written ones. -/
theorem annotateIdx_find (t c : ℚ) (S : List (ℕ × FailureMode)) (i : ℕ)
    (v : FailureMode) (hv : (i, v) ∈ S) (hnd : (S.map Prod.fst).Nodup) :
    ∃ p ∈ annotateIdx t c S,
      (annotateIdx t c S).find? (fun q => decide (q.1 = i)) = some p ∧
      paretoRest p.2 = paretoRest v := by
  have hnd' : ((annotateIdx t c S).map Prod.fst).Nodup := by
    rw [annotateIdx_map_fst]; exact hnd
  have hmemA : ∃ w, (i, w) ∈ annotateIdx t c S ∧ paretoRest w = paretoRest v := by
    have hm : ((i, v).1, paretoRest (i, v).2) ∈
        S.map fun p => (p.1, paretoRest p.2) := List.mem_map_of_mem _ hv
    rw [← annotateIdx_proj t S c] at hm
    obtain ⟨p, hpA, hpe⟩ := List.mem_map.mp hm
    rw [Prod.mk.injEq] at hpe
    have h1 : p.1 = i := by simpa using hpe.1
    have h2 : paretoRest p.2 = paretoRest v := by simpa using hpe.2
    refine ⟨p.2, ?_, h2⟩
    rw [← h1]
    exact hpA
  obtain ⟨w, hwA, hwproj⟩ := hmemA
  have hsome : ((annotateIdx t c S).find? fun q => decide (q.1 = i)).isSome = true :=
    List.find?_isSome.mpr ⟨(i, w), hwA, by simp⟩
  obtain ⟨p, hp⟩ := Option.isSome_iff_exists.mp hsome
  have hpi : p.1 = i := by simpa using List.find?_some hp
  have hpA : p ∈ annotateIdx t c S := List.mem_of_find?_eq_some hp
  have hpw : p = (i, w) := List.inj_on_of_nodup_map hnd' hpA hwA (by simpa using hpi)
  refine ⟨p, hpA, hp, ?_⟩
  rw [hpw]
  exact hwproj

/-- For each original position `i`, the lookup inside `paretoMutate`
succeeds and returns one of the annotated sorted records, whose non-written
fields are those of the record originally at position `i`. -/
theorem paretoMutate_point (l : List FailureMode) (i : ℕ) (hi : i < l.length) :
    ∃ p ∈ annotateIdx (totalFrequency l) 0 (l.enum.mergeSort descFreqIdx),
      (annotateIdx (totalFrequency l) 0 (l.enum.mergeSort descFreqIdx)).find?
          (fun q => decide (q.1 = i)) = some p ∧
      paretoRest p.2 = paretoRest (l.getD i (FailureMode.mk "" 0 0 0 0 0 0 0)) := by
  have hperm : (l.enum.mergeSort descFreqIdx).Perm l.enum :=
    List.mergeSort_perm l.enum descFreqIdx
  have hv : (i, l.getD i (FailureMode.mk "" 0 0 0 0 0 0 0)) ∈
      l.enum.mergeSort descFreqIdx :=
    hperm.mem_iff.mpr (getD_mem_enum l _ i hi)
  have hnd : ((l.enum.mergeSort descFreqIdx).map Prod.fst).Nodup := by
    have hpf : ((l.enum.mergeSort descFreqIdx).map Prod.fst).Perm
        (List.range l.length) := by
      rw [← List.enum_map_fst l]
      exact hperm.map Prod.fst
    exact hpf.nodup_iff.mpr (List.nodup_range _)
  exact annotateIdx_find _ 0 _ i _ hv hnd

/-- C7 counterexample: `pfmea_worksheet` does not leave the caller-supplied
records unchanged. For the single record named `bearing` with
`severity = 2, occurrence = 3, detection = 4` and `rpn` initially `0`, the
caller's list after the call holds the record with `rpn = 24` written into
it: the RPN annotation is an in-place mutation of the input collection, not
only part of the returned structure. -/
theorem C7_counterexample :
    (pfmea_worksheet "EQ-1" [FailureMode.mk "bearing" 1 2 3 4 0 0 0]).2 ≠
      [FailureMode.mk "bearing" 1 2 3 4 0 0 0] := by
  decide

/-- C7 (amended): the toolkit operations are not mutation-free: both
annotate the caller-supplied records in place. After `pfmea_worksheet` the
caller's list holds, in the original order, the original records with `rpn`
overwritten by severity × occurrence × detection and every other field
unchanged. After `pareto_analysis` the caller's list holds, in the original
order, records agreeing with the originals on every field other than the two
written percentage fields, each carrying its percentage annotation
`frequency / total · 100`, and each of these post-call records is one of the
annotated records held by the returned structure's `failure_modes` — the
returned structure shares the mutated records. -/
theorem C7_toolkit_mutates_in_place (equipment_id : String) (l : List FailureMode) :
    (((pfmea_worksheet equipment_id l).2.map fun m => m.rpn) =
      (l.map fun m => m.severity * m.occurrence * m.detection)) ∧
    (((pfmea_worksheet equipment_id l).2.map fun m =>
        (m.name, m.frequency, m.severity, m.occurrence, m.detection,
          m.percentage, m.cumulative_percentage)) =
      (l.map fun m =>
        (m.name, m.frequency, m.severity, m.occurrence, m.detection,
          m.percentage, m.cumulative_percentage))) ∧
    ((paretoMutate l).map paretoRest = l.map paretoRest) ∧
    (∀ m ∈ paretoMutate l,
      m.percentage = m.frequency / totalFrequency l * 100) ∧
    (∀ m ∈ paretoMutate l, m ∈ (pareto_analysis l).failure_modes) := by
  have hpfmea : ((pfmeaAnnotate l).map fun m => m.rpn) =
      (l.map fun m => m.severity * m.occurrence * m.detection) ∧
      ((pfmeaAnnotate l).map fun m =>
        (m.name, m.frequency, m.severity, m.occurrence, m.detection,
          m.percentage, m.cumulative_percentage)) =
      (l.map fun m =>
        (m.name, m.frequency, m.severity, m.occurrence, m.detection,
          m.percentage, m.cumulative_percentage)) := by
    induction l with
    | nil => exact ⟨rfl, rfl⟩
    | cons m ms ih =>
      unfold pfmeaAnnotate calculate_rpn
      simp only [List.map_cons, List.cons.injEq]
      exact ⟨⟨trivial, ih.1⟩, ⟨trivial, ih.2⟩⟩
  have hsnd : (annotateIdx (totalFrequency l) 0
        (l.enum.mergeSort descFreqIdx)).map (·.2) =
      (pareto_analysis l).failure_modes := by
    show _ = annotatedModes l
    rw [annotateIdx_map_snd]
    unfold annotatedModes sortedModes
    rw [show ((l.enum.mergeSort descFreqIdx).map (·.2)) = l.mergeSort descFreq from
      List.mergeSort_enum]
  refine ⟨hpfmea.1, hpfmea.2, ?_, ?_, ?_⟩
  · unfold paretoMutate
    rw [List.map_map]
    refine (List.map_congr_left ?_).trans
      (range_map_getD l (FailureMode.mk "" 0 0 0 0 0 0 0) paretoRest)
    intro i hi
    obtain ⟨p, _, hfind, hproj⟩ := paretoMutate_point l i (List.mem_range.mp hi)
    simp only [Function.comp_apply, hfind, Option.map_some', Option.getD_some]
    exact hproj
  · intro m hm
    unfold paretoMutate at hm
    obtain ⟨i, hi, rfl⟩ := List.mem_map.mp hm
    obtain ⟨p, hpA, hfind, _⟩ := paretoMutate_point l i (List.mem_range.mp hi)
    rw [hfind]
    simp only [Option.map_some', Option.getD_some]
    exact annotateIdx_percentage _ _ 0 p hpA
  · intro m hm
    unfold paretoMutate at hm
    obtain ⟨i, hi, rfl⟩ := List.mem_map.mp hm
    obtain ⟨p, hpA, hfind, _⟩ := paretoMutate_point l i (List.mem_range.mp hi)
    rw [hfind]
    simp only [Option.map_some', Option.getD_some]
    rw [← hsnd]
    exact List.mem_map_of_mem _ hpA

/-! ## Claim C6: the Pareto ranking invariants -/

theorem descFreq_trans (a b c : FailureMode) :
    descFreq a b = true → descFreq b c = true → descFreq a c = true := by
  intro hab hbc
  simp only [descFreq, decide_eq_true_eq] at *
  exact le_trans hbc hab

theorem descFreq_tot (a b : FailureMode) : (descFreq a b || descFreq b a) = true := by
  simp only [descFreq, Bool.or_eq_true, decide_eq_true_eq]
  exact le_total _ _

/-- The annotation loop only writes the two percentage fields: name and
frequency are preserved pointwise. -/
theorem annotate_map_name_freq (t : ℚ) :
    ∀ (ms : List FailureMode) (c : ℚ),
      (annotate t c ms).map (fun m => (m.name, m.frequency)) =
        ms.map fun m => (m.name, m.frequency) := by
  intro ms
  induction ms with
  | nil => intro c; rfl
  | cons m ms ih =>
    intro c
    simp only [annotate, List.map_cons, List.cons.injEq]
    exact ⟨trivial, ih _⟩

theorem annotate_map_freq (t : ℚ) :
    ∀ (ms : List FailureMode) (c : ℚ),
      (annotate t c ms).map (·.frequency) = ms.map (·.frequency) := by
  intro ms
  induction ms with
  | nil => intro c; rfl
  | cons m ms ih =>
    intro c
    simp only [annotate, List.map_cons, List.cons.injEq]
    exact ⟨trivial, ih _⟩

/-- The running cumulative percentages form a `≤`-chain from the incoming
accumulator when all percentage increments are non-negative. -/
theorem annotate_cum_chain (t : ℚ) :
    ∀ (ms : List FailureMode) (c : ℚ),
      (∀ m ∈ ms, 0 ≤ m.frequency / t * 100) →
      List.Chain (· ≤ ·) c ((annotate t c ms).map (·.cumulative_percentage)) := by
  intro ms
  induction ms with
  | nil => intro c _; exact List.Chain.nil
  | cons m ms ih =>
    intro c h
    have h0 : 0 ≤ m.frequency / t * 100 := h m (List.mem_cons_self _ _)
    simp only [annotate, List.map_cons]
    exact List.Chain.cons (by linarith)
      (ih _ fun x hx => h x (List.mem_cons_of_mem _ hx))

theorem chain_le_chain' {c : ℚ} {xs : List ℚ} (h : List.Chain (· ≤ ·) c xs) :
    List.Chain' (· ≤ ·) xs := by
  cases xs with
  | nil => trivial
  | cons b t => exact (List.chain_cons.mp h).2

/-- The last running cumulative percentage is the accumulator plus the sum of
all percentage increments. -/
theorem annotate_last_cum (t : ℚ) :
    ∀ (ms : List FailureMode) (c : ℚ), ms ≠ [] →
      ((annotate t c ms).map (·.cumulative_percentage)).getLast? =
        some (c + (ms.map fun m => m.frequency / t * 100).sum) := by
  intro ms
  induction ms with
  | nil => intro c h; exact absurd rfl h
  | cons m ms ih =>
    intro c _
    cases ms with
    | nil =>
      simp [annotate]
    | cons m2 ms2 =>
      have step := ih (c + m.frequency / t * 100) (by simp)
      simp only [annotate, List.map_cons] at step ⊢
      rw [List.getLast?_cons_cons, step]
      congr 1
      simp only [List.sum_cons]
      ring

theorem map_pct_sum (t : ℚ) :
    ∀ ms : List FailureMode,
      (ms.map fun m => m.frequency / t * 100).sum =
        (ms.map (·.frequency)).sum / t * 100 := by
  intro ms
  induction ms with
  | nil => simp
  | cons m ms ih =>
    simp only [List.map_cons, List.sum_cons, ih]
    ring

/-- On a list whose cumulative percentages are monotone, the `≤ 80` filter
keeps exactly a prefix: it coincides with `takeWhile`. -/
theorem filter_eq_takeWhile_of_mono :
    ∀ xs : List FailureMode,
      List.Pairwise
        (fun a b => a.cumulative_percentage ≤ b.cumulative_percentage) xs →
      xs.filter (fun m => decide (m.cumulative_percentage ≤ 80)) =
        xs.takeWhile fun m => decide (m.cumulative_percentage ≤ 80) := by
  intro xs
  induction xs with
  | nil => intro _; rfl
  | cons x xs ih =>
    intro h
    rw [List.pairwise_cons] at h
    by_cases hx : x.cumulative_percentage ≤ 80
    · rw [List.filter_cons_of_pos (by simpa using hx),
        List.takeWhile_cons_of_pos (by simpa using hx), ih h.2]
    · rw [List.filter_cons_of_neg (by simpa using hx),
        List.takeWhile_cons_of_neg (by simpa using hx)]
      apply List.filter_eq_nil_iff.mpr
      intro a ha
      simp only [decide_eq_true_eq]
      intro hc
      exact hx (le_trans (h.1 a ha) hc)

/-- Stability of the descending-frequency sort, in filter form: the records
of any fixed frequency appear in the sorted list exactly as they do in the
input (Python's `sorted` is stable; so is `List.mergeSort`). -/
theorem sortedModes_filter_stable (l : List FailureMode) (f : ℚ) :
    (sortedModes l).filter (fun m => decide (m.frequency = f)) =
      l.filter fun m => decide (m.frequency = f) := by
  have hsub : (l.filter fun m => decide (m.frequency = f)).Sublist (sortedModes l) := by
    apply List.mergeSort_stable descFreq_trans descFreq_tot
    · apply List.pairwise_of_forall_mem_list
      intro a ha b hb
      have hfa : a.frequency = f := by
        simpa using (List.mem_filter.mp ha).2
      have hfb : b.frequency = f := by
        simpa using (List.mem_filter.mp hb).2
      simp [descFreq, hfa, hfb]
    · exact List.filter_sublist l
  have hself : ((l.filter fun m => decide (m.frequency = f)).filter
      fun m => decide (m.frequency = f)) = l.filter fun m => decide (m.frequency = f) :=
    List.filter_eq_self.mpr fun a ha => (List.mem_filter.mp ha).2
  have hsub2 : (l.filter fun m => decide (m.frequency = f)).Sublist
      ((sortedModes l).filter fun m => decide (m.frequency = f)) := by
    have := hsub.filter fun m => decide (m.frequency = f)
    rwa [hself] at this
  have hlen : ((sortedModes l).filter fun m => decide (m.frequency = f)).length =
      (l.filter fun m => decide (m.frequency = f)).length :=
    ((List.mergeSort_perm l descFreq).filter _).length_eq
  exact (hsub2.eq_of_length hlen.symm).symm

/-- Specialisation of `List.pairwise_map` to the frequency projection. -/
theorem pairwise_map_freq (xs : List FailureMode) :
    List.Pairwise (fun p q : ℚ => q ≤ p) (xs.map fun m => m.frequency) ↔
      List.Pairwise (fun a b : FailureMode => b.frequency ≤ a.frequency) xs :=
  List.pairwise_map

/-- Specialisation of `List.pairwise_map` to the cumulative-percentage
projection. -/
theorem pairwise_map_cum (xs : List FailureMode) :
    List.Pairwise (fun p q : ℚ => p ≤ q) (xs.map fun m => m.cumulative_percentage) ↔
      List.Pairwise
        (fun a b : FailureMode =>
          a.cumulative_percentage ≤ b.cumulative_percentage) xs :=
  List.pairwise_map

/-- Lists with equal name/frequency projections have equal name images under
any fixed-frequency filter. -/
theorem filter_map_name_congr (f : ℚ) :
    ∀ xs ys : List FailureMode,
      (xs.map fun m => (m.name, m.frequency)) = (ys.map fun m => (m.name, m.frequency)) →
      ((xs.filter fun m => decide (m.frequency = f)).map (·.name)) =
        ((ys.filter fun m => decide (m.frequency = f)).map (·.name)) := by
  intro xs
  induction xs with
  | nil =>
    intro ys h
    cases ys with
    | nil => rfl
    | cons y ys => exact absurd h (by simp)
  | cons x xs ih =>
    intro ys h
    cases ys with
    | nil => exact absurd h (by simp)
    | cons y ys =>
      simp only [List.map_cons, List.cons.injEq, Prod.mk.injEq] at h
      obtain ⟨⟨hname, hfreq⟩, htail⟩ := h
      by_cases hx : x.frequency = f
      · have hy : y.frequency = f := by rw [← hfreq]; exact hx
        rw [List.filter_cons_of_pos (by simpa using hx),
          List.filter_cons_of_pos (by simpa using hy), List.map_cons, List.map_cons,
          hname, ih ys htail]
      · have hy : ¬ y.frequency = f := by rw [← hfreq]; exact hx
        rw [List.filter_cons_of_neg (by simpa using hx),
          List.filter_cons_of_neg (by simpa using hy), ih ys htail]

/-- C6: for nonempty input with positive frequencies, `pareto_analysis`
returns the modes sorted descending by frequency with ties kept stably in
input order, the running cumulative percentages are non-decreasing and end
exactly at `100` (hence within `1e-6`), and `vital_few` is precisely the
prefix of modes with cumulative percentage `≤ 80`; for empty input the
vital-few set is empty and the reported cumulative percentage is `0`. -/
theorem C6_pareto_ranking (l : List FailureMode) (h1 : l ≠ [])
    (h2 : ∀ m ∈ l, 0 < m.frequency) :
    List.Pairwise (fun a b => b.frequency ≤ a.frequency)
      (pareto_analysis l).failure_modes ∧
    (∀ f : ℚ,
      (((pareto_analysis l).failure_modes.filter
          fun m => decide (m.frequency = f)).map (·.name)) =
        ((l.filter fun m => decide (m.frequency = f)).map (·.name))) ∧
    List.Chain' (· ≤ ·)
      ((pareto_analysis l).failure_modes.map (·.cumulative_percentage)) ∧
    ((pareto_analysis l).failure_modes.map (·.cumulative_percentage)).getLast? =
      some 100 ∧
    (pareto_analysis l).vital_few =
      ((pareto_analysis l).failure_modes.takeWhile
        fun m => decide (m.cumulative_percentage ≤ 80)) ∧
    (pareto_analysis ([] : List FailureMode)).vital_few = [] ∧
    (pareto_analysis ([] : List FailureMode)).vital_few_percentage = 0 := by
  have hperm : (sortedModes l).Perm l := List.mergeSort_perm l descFreq
  have hmem_sorted : ∀ m ∈ sortedModes l, 0 < m.frequency :=
    fun m hm => h2 m (hperm.mem_iff.mp hm)
  have hsne : sortedModes l ≠ [] := by
    intro hnil
    rw [hnil] at hperm
    exact h1 hperm.nil_eq.symm
  have htot : 0 < totalFrequency l := by
    apply List.sum_pos
    · intro x hx
      obtain ⟨m, hm, rfl⟩ := List.mem_map.mp hx
      exact hmem_sorted m hm
    · simpa [List.map_eq_nil_iff] using hsne
  have hpct : ∀ m ∈ sortedModes l, 0 ≤ m.frequency / totalFrequency l * 100 :=
    fun m hm => mul_nonneg (div_nonneg (hmem_sorted m hm).le htot.le) (by norm_num)
  have hfm : (pareto_analysis l).failure_modes = annotatedModes l := rfl
  have hvf : (pareto_analysis l).vital_few = vitalFew l := rfl
  have hchain : List.Chain (· ≤ ·) 0
      ((annotatedModes l).map (·.cumulative_percentage)) :=
    annotate_cum_chain _ _ 0 hpct
  have hchain' : List.Chain' (· ≤ ·)
      ((annotatedModes l).map (·.cumulative_percentage)) := chain_le_chain' hchain
  have hpair_cum : List.Pairwise
      (fun a b => a.cumulative_percentage ≤ b.cumulative_percentage)
      (annotatedModes l) :=
    (pairwise_map_cum _).mp (List.chain'_iff_pairwise.mp hchain')
  refine ⟨?_, ?_, ?_, ?_, ?_, ?_, ?_⟩
  · rw [hfm]
    have hpair_s : List.Pairwise (fun a b => b.frequency ≤ a.frequency)
        (sortedModes l) :=
      (List.sorted_mergeSort descFreq_trans descFreq_tot l).imp
        (by intro a b h; simpa [descFreq] using h)
    apply (pairwise_map_freq _).mp
    rw [show ((annotatedModes l).map fun m => m.frequency) =
        ((sortedModes l).map fun m => m.frequency) from annotate_map_freq _ _ 0]
    exact (pairwise_map_freq _).mpr hpair_s
  · intro f
    rw [hfm]
    calc ((annotatedModes l).filter fun m => decide (m.frequency = f)).map (·.name)
        = ((sortedModes l).filter fun m => decide (m.frequency = f)).map (·.name) :=
          filter_map_name_congr f _ _ (annotate_map_name_freq _ _ 0)
      _ = (l.filter fun m => decide (m.frequency = f)).map (·.name) := by
          rw [sortedModes_filter_stable]
  · rw [hfm]
    exact hchain'
  · rw [hfm, annotatedModes, annotate_last_cum _ _ 0 hsne, map_pct_sum]
    rw [show ((sortedModes l).map (·.frequency)).sum = totalFrequency l from rfl]
    rw [div_self (ne_of_gt htot)]
    norm_num
  · rw [hfm, hvf, vitalFew]
    exact filter_eq_takeWhile_of_mono _ hpair_cum
  · simp [pareto_analysis, vitalFew, annotatedModes, sortedModes, List.mergeSort_nil,
      annotate]
  · simp [pareto_analysis, vitalFew, annotatedModes, sortedModes, List.mergeSort_nil,
      annotate]

/-- The concrete input of the C6 witness: four modes with positive
frequencies, two of them tied at frequency `3`. -/
def sampleModes : List FailureMode :=
  [FailureMode.mk "a" 5 0 0 0 0 0 0, FailureMode.mk "b" 3 0 0 0 0 0 0,
   FailureMode.mk "c" 3 0 0 0 0 0 0, FailureMode.mk "d" 1 0 0 0 0 0 0]

/-- C6 witness: the Pareto invariants at the concrete input `sampleModes`
(with the stability conjunct instantiated at the tied frequency `3`). -/
theorem C6_pareto_ranking_witness :
    (sampleModes ≠ [] ∧ ∀ m ∈ sampleModes, 0 < m.frequency) ∧
    List.Pairwise (fun a b => b.frequency ≤ a.frequency)
      (pareto_analysis sampleModes).failure_modes ∧
    (((pareto_analysis sampleModes).failure_modes.filter
        fun m => decide (m.frequency = 3)).map (·.name)) =
      ((sampleModes.filter fun m => decide (m.frequency = 3)).map (·.name)) ∧
    ((pareto_analysis sampleModes).failure_modes.map
      (·.cumulative_percentage)).getLast? = some 100 ∧
    (pareto_analysis sampleModes).vital_few =
      ((pareto_analysis sampleModes).failure_modes.takeWhile
        fun m => decide (m.cumulative_percentage ≤ 80)) := by
  have h1 : sampleModes ≠ [] := by decide
  have h2 : ∀ m ∈ sampleModes, 0 < m.frequency := by decide
  obtain ⟨ha, hb, _, hd, he, _, _⟩ := C6_pareto_ranking sampleModes h1 h2
  exact ⟨⟨h1, h2⟩, ha, hb 3, hd, he⟩

end RelEng
